import Mathlib

/-!
Verification of the Möbius-strip geometry utility (`Mobius-strip.py`).

The Python class `MobiusStrip` is shallowly embedded: machine floats become
real numbers, numpy arrays become functions from indices, and Python methods
(which read `self` but never write to it after `__init__`) become functions
returning a value paired with the (unchanged) object state.
-/

noncomputable section

open Real

/-- The state of a `MobiusStrip` object after `__init__`:
fields `R`, `w`, `n`, the 1-D parameter arrays `u`, `v`, their
`meshgrid` broadcasts `U`, `V` (row `i` = width index, column `j` = angle
index), and the cached `mesh` triple of n×n coordinate arrays. -/
structure MobiusStrip where
  R : ℝ
  w : ℝ
  n : ℕ
  u : ℕ → ℝ
  v : ℕ → ℝ
  U : ℕ → ℕ → ℝ
  V : ℕ → ℕ → ℝ
  mesh : ℕ → ℕ → ℝ × ℝ × ℝ

/-- `np.linspace a b n` as a function of the index: `n` evenly spaced samples
from `a` to `b`, with step `(b - a) / (n - 1)`. -/
def linspace (a b : ℝ) (n : ℕ) : ℕ → ℝ :=
  fun k => a + (k : ℝ) * ((b - a) / ((n : ℝ) - 1))

/-- `np.trapz y dx` over the first `n` entries of `y`: the composite
trapezoidal rule with uniform spacing `dx`. -/
def trapz (f : ℕ → ℝ) (dx : ℝ) (n : ℕ) : ℝ :=
  ∑ i ∈ Finset.range (n - 1), dx * ((f i + f (i + 1)) / 2)

/-- `MobiusStrip.__init__` followed by `_generate_mesh`: builds the parameter
grid `u = linspace(0, 2π, n)`, `v = linspace(-w/2, w/2, n)`, the broadcasts
`U[i][j] = u[j]`, `V[i][j] = v[i]`, and the mesh
`x = (R + V cos(U/2)) cos U`, `y = (R + V cos(U/2)) sin U`,
`z = V sin(U/2)`. -/
def mkStrip (R w : ℝ) (n : ℕ) : MobiusStrip :=
  let u := linspace 0 (2 * Real.pi) n
  let v := linspace (-(w / 2)) (w / 2) n
  let U : ℕ → ℕ → ℝ := fun _i j => u j
  let V : ℕ → ℕ → ℝ := fun i _j => v i
  { R := R, w := w, n := n, u := u, v := v, U := U, V := V,
    mesh := fun i j =>
      ((R + V i j * Real.cos (U i j / 2)) * Real.cos (U i j),
       (R + V i j * Real.cos (U i j / 2)) * Real.sin (U i j),
       V i j * Real.sin (U i j / 2)) }

/-- Object construction.  `__init__` contains no validation of `n` and no
raise statement, so construction always produces a handle. -/
def construct (R w : ℝ) (n : ℕ) : Option MobiusStrip :=
  some (mkStrip R w n)

/-- `get_mesh`: returns the cached mesh; `self` is not modified. -/
def MobiusStrip.get_mesh (m : MobiusStrip) : (ℕ → ℕ → ℝ × ℝ × ℝ) × MobiusStrip :=
  (m.mesh, m)

/-- `compute_surface_area`: the cross-product-magnitude integrand built from
the analytic partials at every grid cell `(U[i][j], V[i][j])`, integrated by
`np.trapz` along axis 0 (the v-axis, spacing `dv = w/(n-1)`) and then along
the u-axis (spacing `du = 2π/(n-1)`).  `self` is not modified. -/
def MobiusStrip.compute_surface_area (m : MobiusStrip) : ℝ × MobiusStrip :=
  let du := 2 * Real.pi / ((m.n : ℝ) - 1)
  let dv := m.w / ((m.n : ℝ) - 1)
  let integrand : ℕ → ℕ → ℝ := fun i j =>
    let u := m.U i j
    let v := m.V i j
    let x_u := -(m.R + v * Real.cos (u / 2)) * Real.sin u -
               (v / 2) * Real.sin (u / 2) * Real.cos u
    let y_u := (m.R + v * Real.cos (u / 2)) * Real.cos u -
               (v / 2) * Real.sin (u / 2) * Real.sin u
    let z_u := (v / 2) * Real.cos (u / 2)
    let x_v := Real.cos (u / 2) * Real.cos u
    let y_v := Real.cos (u / 2) * Real.sin u
    let z_v := Real.sin (u / 2)
    Real.sqrt ((y_u * z_v - z_u * y_v) ^ 2 +
               (z_u * x_v - x_u * z_v) ^ 2 +
               (x_u * y_v - y_u * x_v) ^ 2)
  (trapz (fun j => trapz (fun i => integrand i j) dv m.n) du m.n, m)

/-- One iteration of the loop body of `compute_edge_length`: the arc length of
the boundary curve at a fixed `v`, from the analytic u-derivatives sampled on
the 1-D array `u`, integrated by `np.trapz` with spacing `du = 2π/(n-1)`. -/
def MobiusStrip.edge_length_at (m : MobiusStrip) (v : ℝ) : ℝ :=
  let du := 2 * Real.pi / ((m.n : ℝ) - 1)
  let integrand : ℕ → ℝ := fun j =>
    let u := m.u j
    let dx_du := -(m.R + v * Real.cos (u / 2)) * Real.sin u -
                 (v / 2) * Real.sin (u / 2) * Real.cos u
    let dy_du := (m.R + v * Real.cos (u / 2)) * Real.cos u -
                 (v / 2) * Real.sin (u / 2) * Real.sin u
    let dz_du := (v / 2) * Real.cos (u / 2)
    Real.sqrt (dx_du ^ 2 + dy_du ^ 2 + dz_du ^ 2)
  trapz integrand du m.n

/-- `compute_edge_length`: sums the loop body over `v_edges = [w/2, -w/2]`,
starting from `total_length = 0`.  `self` is not modified. -/
def MobiusStrip.compute_edge_length (m : MobiusStrip) : ℝ × MobiusStrip :=
  (0 + m.edge_length_at (m.w / 2) + m.edge_length_at (-(m.w / 2)), m)

/-- The three public read operations on a handle. -/
inductive Op where
  | getMesh
  | surfaceArea
  | edgeLength

/-- State transition of one public operation: the state component returned by
the corresponding method. -/
def applyOp (o : Op) (m : MobiusStrip) : MobiusStrip :=
  match o with
  | Op.getMesh => m.get_mesh.2
  | Op.surfaceArea => m.compute_surface_area.2
  | Op.edgeLength => m.compute_edge_length.2

/-- Run a sequence of public operations, threading the object state. -/
def runOps : List Op → MobiusStrip → MobiusStrip
  | [], m => m
  | o :: os, m => runOps os (applyOp o m)

/-! Spec-side definitions, written from the specification text (for the
refinement claims about surface area and edge length). -/

/-- The spec's area-element magnitude `|∂P/∂u × ∂P/∂v|` at a parameter point
`(u, v)`, built from the six analytic partials listed in the spec. -/
def specCrossNorm (R u v : ℝ) : ℝ :=
  let x_u := -(R + v * Real.cos (u / 2)) * Real.sin u -
             (v / 2) * Real.sin (u / 2) * Real.cos u
  let y_u := (R + v * Real.cos (u / 2)) * Real.cos u -
             (v / 2) * Real.sin (u / 2) * Real.sin u
  let z_u := (v / 2) * Real.cos (u / 2)
  let x_v := Real.cos (u / 2) * Real.cos u
  let y_v := Real.cos (u / 2) * Real.sin u
  let z_v := Real.sin (u / 2)
  Real.sqrt ((y_u * z_v - z_u * y_v) ^ 2 +
             (z_u * x_v - x_u * z_v) ^ 2 +
             (x_u * y_v - y_u * x_v) ^ 2)

/-- The spec's surface-area contract: the composite trapezoidal rule applied
twice to the n×n integrand — first along the v-axis with spacing
`dv = w/(n-1)`, producing an n-length sequence indexed by u, then along the
u-axis with spacing `du = 2π/(n-1)`. -/
def specSurfaceArea (R w : ℝ) (n : ℕ) : ℝ :=
  let du := 2 * Real.pi / ((n : ℝ) - 1)
  let dv := w / ((n : ℝ) - 1)
  let innerSeq : ℕ → ℝ := fun j =>
    trapz (fun i => specCrossNorm R (linspace 0 (2 * Real.pi) n j)
                                   (linspace (-(w / 2)) (w / 2) n i)) dv n
  trapz innerSeq du n

/-- The spec's arc-length integrand `sqrt((dx/du)² + (dy/du)² + (dz/du)²)`
at a fixed boundary `v`, from the analytic u-partials. -/
def specArcIntegrand (R v u : ℝ) : ℝ :=
  Real.sqrt ((-(R + v * Real.cos (u / 2)) * Real.sin u -
              (v / 2) * Real.sin (u / 2) * Real.cos u) ^ 2 +
             ((R + v * Real.cos (u / 2)) * Real.cos u -
              (v / 2) * Real.sin (u / 2) * Real.sin u) ^ 2 +
             ((v / 2) * Real.cos (u / 2)) ^ 2)

/-- The spec's edge-length contract: the sum of two independent arc-length
integrals at `v = +w/2` and `v = -w/2`, each a trapezoidal-rule integral with
spacing `du = 2π/(n-1)` over the angular grid. -/
def specEdgeLength (R w : ℝ) (n : ℕ) : ℝ :=
  let du := 2 * Real.pi / ((n : ℝ) - 1)
  trapz (fun j => specArcIntegrand R (w / 2) (linspace 0 (2 * Real.pi) n j)) du n +
  trapz (fun j => specArcIntegrand R (-(w / 2)) (linspace 0 (2 * Real.pi) n j)) du n

/-! Helper lemmas. -/

/-- Every public operation leaves the object state unchanged: the methods read
`self` but never assign to it. -/
theorem runOps_id (ops : List Op) (m : MobiusStrip) : runOps ops m = m := by
  induction ops with
  | nil => rfl
  | cons o os ih =>
    cases o <;> simpa [runOps, applyOp, MobiusStrip.get_mesh,
      MobiusStrip.compute_surface_area, MobiusStrip.compute_edge_length] using ih

/-! Claim theorems. -/

/-- C1 (counterexample): the claim says construction fails with
`InvalidResolution` for `n = 1` and `n = 0` and produces no handle; in the
code `__init__` has no validation, so construction succeeds and a handle is
produced for both. -/
theorem construct_low_n_succeeds :
    (construct (1 : ℝ) 1 1).isSome = true ∧ (construct (1 : ℝ) 1 0).isSome = true :=
  ⟨rfl, rfl⟩

/-- C1 (amended): construction never fails: for every `R`, `w` and every
resolution `n` — including `n = 0` and `n = 1` — a handle carrying the given
parameters is produced; the code contains no `InvalidResolution` check. -/
theorem construct_always_succeeds (R w : ℝ) (n : ℕ) :
    ∃ h : MobiusStrip, construct R w n = some h ∧ h.R = R ∧ h.w = w ∧ h.n = n :=
  ⟨mkStrip R w n, rfl, rfl, rfl, rfl⟩

/-- C9: `getMesh`, `computeSurfaceArea` and `computeEdgeLength` have no side
effect: any sequence of these operations leaves every field of the handle
unchanged, and `getMesh` returns the same mesh before and after. -/
theorem ops_are_pure (ops : List Op) (m : MobiusStrip) :
    runOps ops m = m ∧
    (runOps ops m).R = m.R ∧ (runOps ops m).w = m.w ∧ (runOps ops m).n = m.n ∧
    (runOps ops m).u = m.u ∧ (runOps ops m).v = m.v ∧
    (runOps ops m).U = m.U ∧ (runOps ops m).V = m.V ∧
    (runOps ops m).mesh = m.mesh ∧
    ((runOps ops m).get_mesh).1 = (m.get_mesh).1 := by
  have h := runOps_id ops m
  rw [h]
  exact ⟨rfl, rfl, rfl, rfl, rfl, rfl, rfl, rfl, rfl, rfl⟩

/-- C2: for every handle with `n ≥ 2`, `compute_surface_area` returns exactly
the spec's double composite trapezoidal rule: v-axis first with
`dv = w/(n-1)`, giving an n-length sequence indexed by u, then the u-axis
with `du = 2π/(n-1)`, applied to the cross-product-magnitude integrand built
from the analytic partials at every grid cell. -/
theorem surface_area_matches_spec (R w : ℝ) (n : ℕ) (hn : 2 ≤ n) :
    ((mkStrip R w n).compute_surface_area).1 = specSurfaceArea R w n := rfl

/-- C2 witness at `R = 3`, `w = 1`, `n = 2`. -/
theorem surface_area_matches_spec_witness :
    2 ≤ 2 ∧ ((mkStrip (3 : ℝ) 1 2).compute_surface_area).1 = specSurfaceArea 3 1 2 :=
  ⟨by norm_num, surface_area_matches_spec 3 1 2 (by norm_num)⟩

/-- C3: for every handle with `n ≥ 2`, `compute_edge_length` returns the sum
of the two independently computed arc-length integrals at `v = +w/2` and
`v = -w/2`, each the trapezoidal rule with spacing `du = 2π/(n-1)` applied to
the spec's arc-length integrand over the angular grid. -/
theorem edge_length_matches_spec (R w : ℝ) (n : ℕ) (hn : 2 ≤ n) :
    ((mkStrip R w n).compute_edge_length).1 = specEdgeLength R w n := by
  simp only [MobiusStrip.compute_edge_length, MobiusStrip.edge_length_at,
    specEdgeLength, specArcIntegrand, mkStrip, zero_add]

/-- C3 witness at `R = 3`, `w = 1`, `n = 2`. -/
theorem edge_length_matches_spec_witness :
    2 ≤ 2 ∧ ((mkStrip (3 : ℝ) 1 2).compute_edge_length).1 = specEdgeLength 3 1 2 :=
  ⟨by norm_num, edge_length_matches_spec 3 1 2 (by norm_num)⟩

/-- C4: for every handle with `n ≥ 2`, the mesh entry at `[i][j]` is the
Möbius parametric position at `(u[j], v[i])`, and consequently
`x² + y² = (R + v·cos(u/2))²` there. -/
theorem mesh_points_correct (R w : ℝ) (n : ℕ) (hn : 2 ≤ n)
    (i j : ℕ) (hi : i < n) (hj : j < n) :
    (mkStrip R w n).mesh i j =
      ((R + (mkStrip R w n).v i * Real.cos ((mkStrip R w n).u j / 2)) *
          Real.cos ((mkStrip R w n).u j),
       (R + (mkStrip R w n).v i * Real.cos ((mkStrip R w n).u j / 2)) *
          Real.sin ((mkStrip R w n).u j),
       (mkStrip R w n).v i * Real.sin ((mkStrip R w n).u j / 2)) ∧
    ((mkStrip R w n).mesh i j).1 ^ 2 + ((mkStrip R w n).mesh i j).2.1 ^ 2 =
      (R + (mkStrip R w n).v i * Real.cos ((mkStrip R w n).u j / 2)) ^ 2 := by
  refine ⟨rfl, ?_⟩
  show ((R + linspace (-(w / 2)) (w / 2) n i * Real.cos (linspace 0 (2 * Real.pi) n j / 2)) *
          Real.cos (linspace 0 (2 * Real.pi) n j)) ^ 2 +
       ((R + linspace (-(w / 2)) (w / 2) n i * Real.cos (linspace 0 (2 * Real.pi) n j / 2)) *
          Real.sin (linspace 0 (2 * Real.pi) n j)) ^ 2 =
       (R + linspace (-(w / 2)) (w / 2) n i * Real.cos (linspace 0 (2 * Real.pi) n j / 2)) ^ 2
  have h := Real.sin_sq_add_cos_sq (linspace 0 (2 * Real.pi) n j)
  nlinarith [h]

/-- C4 witness at `R = 1`, `w = 1`, `n = 2`, `i = j = 0`. -/
theorem mesh_points_correct_witness :
    (2 ≤ 2 ∧ 0 < 2 ∧ 0 < 2) ∧
    ((mkStrip (1 : ℝ) 1 2).mesh 0 0 =
      ((1 + (mkStrip (1 : ℝ) 1 2).v 0 * Real.cos ((mkStrip (1 : ℝ) 1 2).u 0 / 2)) *
          Real.cos ((mkStrip (1 : ℝ) 1 2).u 0),
       (1 + (mkStrip (1 : ℝ) 1 2).v 0 * Real.cos ((mkStrip (1 : ℝ) 1 2).u 0 / 2)) *
          Real.sin ((mkStrip (1 : ℝ) 1 2).u 0),
       (mkStrip (1 : ℝ) 1 2).v 0 * Real.sin ((mkStrip (1 : ℝ) 1 2).u 0 / 2)) ∧
     ((mkStrip (1 : ℝ) 1 2).mesh 0 0).1 ^ 2 + ((mkStrip (1 : ℝ) 1 2).mesh 0 0).2.1 ^ 2 =
       (1 + (mkStrip (1 : ℝ) 1 2).v 0 * Real.cos ((mkStrip (1 : ℝ) 1 2).u 0 / 2)) ^ 2) :=
  ⟨by norm_num, mesh_points_correct 1 1 2 (by norm_num) 0 0 (by norm_num) (by norm_num)⟩

/-- C5: for every handle with `n ≥ 2`, the parameter grid satisfies
`u[0] = 0`, `u[n-1] = 2π`, `v[0] = -w/2`, `v[n-1] = w/2`, both sequences are
uniformly spaced with `du = 2π/(n-1)` and `dv = w/(n-1)`, and every sequence
of subsequent operations preserves the grid. -/
theorem grid_invariant (R w : ℝ) (n : ℕ) (hn : 2 ≤ n) :
    (mkStrip R w n).u 0 = 0 ∧
    (mkStrip R w n).u (n - 1) = 2 * Real.pi ∧
    (mkStrip R w n).v 0 = -(w / 2) ∧
    (mkStrip R w n).v (n - 1) = w / 2 ∧
    (∀ j : ℕ, (mkStrip R w n).u (j + 1) - (mkStrip R w n).u j =
      2 * Real.pi / ((n : ℝ) - 1)) ∧
    (∀ i : ℕ, (mkStrip R w n).v (i + 1) - (mkStrip R w n).v i =
      w / ((n : ℝ) - 1)) ∧
    (∀ ops : List Op,
      (runOps ops (mkStrip R w n)).u = (mkStrip R w n).u ∧
      (runOps ops (mkStrip R w n)).v = (mkStrip R w n).v) := by
  have h1 : (1 : ℕ) ≤ n := le_trans one_le_two hn
  have h2 : (2 : ℝ) ≤ (n : ℝ) := by exact_mod_cast hn
  have hne : (n : ℝ) - 1 ≠ 0 := by linarith
  have hcast : ((n - 1 : ℕ) : ℝ) = (n : ℝ) - 1 := by
    push_cast [Nat.cast_sub h1]
    ring
  refine ⟨?_, ?_, ?_, ?_, ?_, ?_, ?_⟩
  · show linspace 0 (2 * Real.pi) n 0 = 0
    simp [linspace]
  · show linspace 0 (2 * Real.pi) n (n - 1) = 2 * Real.pi
    unfold linspace
    rw [hcast]
    field_simp
  · show linspace (-(w / 2)) (w / 2) n 0 = -(w / 2)
    simp [linspace]
  · show linspace (-(w / 2)) (w / 2) n (n - 1) = w / 2
    unfold linspace
    rw [hcast]
    field_simp
    ring
  · intro j
    show linspace 0 (2 * Real.pi) n (j + 1) - linspace 0 (2 * Real.pi) n j =
      2 * Real.pi / ((n : ℝ) - 1)
    unfold linspace
    push_cast
    ring
  · intro i
    show linspace (-(w / 2)) (w / 2) n (i + 1) - linspace (-(w / 2)) (w / 2) n i =
      w / ((n : ℝ) - 1)
    unfold linspace
    push_cast
    field_simp
    ring
  · intro ops
    rw [runOps_id]
    exact ⟨rfl, rfl⟩

/-- C5 witness at `R = 3`, `w = 1`, `n = 2`. -/
theorem grid_invariant_witness :
    2 ≤ 2 ∧
    ((mkStrip (3 : ℝ) 1 2).u 0 = 0 ∧
     (mkStrip (3 : ℝ) 1 2).u (2 - 1) = 2 * Real.pi ∧
     (mkStrip (3 : ℝ) 1 2).v 0 = -(1 / 2) ∧
     (mkStrip (3 : ℝ) 1 2).v (2 - 1) = 1 / 2 ∧
     (∀ j : ℕ, (mkStrip (3 : ℝ) 1 2).u (j + 1) - (mkStrip (3 : ℝ) 1 2).u j =
       2 * Real.pi / ((2 : ℕ) - 1 : ℝ)) ∧
     (∀ i : ℕ, (mkStrip (3 : ℝ) 1 2).v (i + 1) - (mkStrip (3 : ℝ) 1 2).v i =
       1 / ((2 : ℕ) - 1 : ℝ)) ∧
     (∀ ops : List Op,
       (runOps ops (mkStrip (3 : ℝ) 1 2)).u = (mkStrip (3 : ℝ) 1 2).u ∧
       (runOps ops (mkStrip (3 : ℝ) 1 2)).v = (mkStrip (3 : ℝ) 1 2).v)) :=
  ⟨by norm_num, grid_invariant 3 1 2 (by norm_num)⟩

/-- The area-element magnitude simplifies: by `sin² + cos² = 1` (for both `u`
and `u/2`) the cross-product norm equals `sqrt((R + v·cos(u/2))² + v²/4)`. -/
theorem specCrossNorm_eq (R u v : ℝ) :
    specCrossNorm R u v = Real.sqrt ((R + v * Real.cos (u / 2)) ^ 2 + v ^ 2 / 4) := by
  have h1 := Real.sin_sq_add_cos_sq u
  have h2 := Real.sin_sq_add_cos_sq (u / 2)
  simp only [specCrossNorm]
  congr 1
  linear_combination
    ((R + v * Real.cos (u / 2)) ^ 2 * Real.sin (u / 2) ^ 2 +
      v ^ 2 / 4 * (Real.sin (u / 2) ^ 2 + Real.cos (u / 2) ^ 2) ^ 2 +
      (R + v * Real.cos (u / 2)) ^ 2 * Real.cos (u / 2) ^ 2 *
        ((Real.sin u ^ 2 + Real.cos u ^ 2) + 1)) * h1 +
    ((R + v * Real.cos (u / 2)) ^ 2 +
      v ^ 2 / 4 * ((Real.sin (u / 2) ^ 2 + Real.cos (u / 2) ^ 2) + 1)) * h2

/-- The arc-length integrand simplifies to the same closed form. -/
theorem specArcIntegrand_eq (R v u : ℝ) :
    specArcIntegrand R v u = Real.sqrt ((R + v * Real.cos (u / 2)) ^ 2 + v ^ 2 / 4) := by
  have h1 := Real.sin_sq_add_cos_sq u
  have h2 := Real.sin_sq_add_cos_sq (u / 2)
  simp only [specArcIntegrand]
  congr 1
  linear_combination
    ((R + v * Real.cos (u / 2)) ^ 2 + v ^ 2 / 4 * Real.sin (u / 2) ^ 2) * h1 +
    (v ^ 2 / 4) * h2

/-- `compute_surface_area` on a freshly built strip, with the integrand in
simplified closed form. -/
theorem surface_area_eq (R w : ℝ) (n : ℕ) :
    ((mkStrip R w n).compute_surface_area).1 =
    trapz (fun j => trapz (fun i =>
        Real.sqrt ((R + linspace (-(w / 2)) (w / 2) n i *
            Real.cos (linspace 0 (2 * Real.pi) n j / 2)) ^ 2 +
          (linspace (-(w / 2)) (w / 2) n i) ^ 2 / 4))
      (w / ((n : ℝ) - 1)) n) (2 * Real.pi / ((n : ℝ) - 1)) n := by
  show trapz (fun j => trapz (fun i =>
      specCrossNorm R (linspace 0 (2 * Real.pi) n j) (linspace (-(w / 2)) (w / 2) n i))
    (w / ((n : ℝ) - 1)) n) (2 * Real.pi / ((n : ℝ) - 1)) n = _
  simp only [specCrossNorm_eq]

/-- `edge_length_at` on a freshly built strip, with the integrand in
simplified closed form. -/
theorem edge_length_at_eq (R w : ℝ) (n : ℕ) (v : ℝ) :
    (mkStrip R w n).edge_length_at v =
    trapz (fun j =>
        Real.sqrt ((R + v * Real.cos (linspace 0 (2 * Real.pi) n j / 2)) ^ 2 + v ^ 2 / 4))
      (2 * Real.pi / ((n : ℝ) - 1)) n := by
  show trapz (fun j => specArcIntegrand R v (linspace 0 (2 * Real.pi) n j))
    (2 * Real.pi / ((n : ℝ) - 1)) n = _
  simp only [specArcIntegrand_eq]

/-- A trapezoidal sum of a nonnegative function with nonnegative spacing is
nonnegative. -/
theorem trapz_nonneg (f : ℕ → ℝ) (dx : ℝ) (n : ℕ)
    (hdx : 0 ≤ dx) (hf : ∀ i, 0 ≤ f i) : 0 ≤ trapz f dx n := by
  unfold trapz
  apply Finset.sum_nonneg
  intro i _
  have := hf i
  have := hf (i + 1)
  positivity

/-- C6: for all valid parameters (`R > 0`, `w > 0`, `n ≥ 2`), both metrics
are nonnegative reals; in particular at `n = 2` the spacing denominator
`n - 1` is nonzero, so no division by zero occurs and finite values result. -/
theorem metrics_nonneg (R w : ℝ) (n : ℕ) (hR : 0 < R) (hw : 0 < w) (hn : 2 ≤ n) :
    0 ≤ ((mkStrip R w n).compute_surface_area).1 ∧
    0 ≤ ((mkStrip R w n).compute_edge_length).1 ∧
    ((n : ℝ) - 1 ≠ 0) := by
  have h2 : (2 : ℝ) ≤ (n : ℝ) := by exact_mod_cast hn
  have hpos : (0 : ℝ) < (n : ℝ) - 1 := by linarith
  have hdu : 0 ≤ 2 * Real.pi / ((n : ℝ) - 1) :=
    div_nonneg (by positivity) hpos.le
  have hdv : 0 ≤ w / ((n : ℝ) - 1) := div_nonneg hw.le hpos.le
  refine ⟨?_, ?_, ne_of_gt hpos⟩
  · rw [surface_area_eq]
    refine trapz_nonneg _ _ _ hdu fun j => ?_
    exact trapz_nonneg _ _ _ hdv fun i => Real.sqrt_nonneg _
  · have he : ((mkStrip R w n).compute_edge_length).1 =
        0 + (mkStrip R w n).edge_length_at (w / 2) +
        (mkStrip R w n).edge_length_at (-(w / 2)) := rfl
    rw [he, edge_length_at_eq, edge_length_at_eq]
    have l1 := trapz_nonneg (fun j =>
      Real.sqrt ((R + w / 2 * Real.cos (linspace 0 (2 * Real.pi) n j / 2)) ^ 2 +
        (w / 2) ^ 2 / 4)) _ n hdu fun j => Real.sqrt_nonneg _
    have l2 := trapz_nonneg (fun j =>
      Real.sqrt ((R + -(w / 2) * Real.cos (linspace 0 (2 * Real.pi) n j / 2)) ^ 2 +
        (-(w / 2)) ^ 2 / 4)) _ n hdu fun j => Real.sqrt_nonneg _
    linarith

/-- C6 witness at `R = 3`, `w = 1`, `n = 2`. -/
theorem metrics_nonneg_witness :
    ((0 : ℝ) < 3 ∧ (0 : ℝ) < 1 ∧ 2 ≤ 2) ∧
    (0 ≤ ((mkStrip (3 : ℝ) 1 2).compute_surface_area).1 ∧
     0 ≤ ((mkStrip (3 : ℝ) 1 2).compute_edge_length).1 ∧
     (((2 : ℕ) : ℝ) - 1 ≠ 0)) :=
  ⟨by norm_num, metrics_nonneg 3 1 2 (by norm_num) (by norm_num) (by norm_num)⟩

/-- C8: in the degenerate case `w = 0` (any `R`, `n ≥ 2`) the surface area is
exactly `0` (the v-spacing `dv = 0/(n-1)` vanishes, so the inner trapezoidal
sums are all zero), and the two per-edge arc lengths computed inside
`compute_edge_length` coincide (both edges sit at `v = 0`, the centerline). -/
theorem degenerate_width_zero (R : ℝ) (n : ℕ) (hn : 2 ≤ n) :
    ((mkStrip R 0 n).compute_surface_area).1 = 0 ∧
    (mkStrip R 0 n).edge_length_at ((mkStrip R 0 n).w / 2) =
      (mkStrip R 0 n).edge_length_at (-((mkStrip R 0 n).w / 2)) := by
  constructor
  · rw [surface_area_eq]
    unfold trapz
    simp
  · show (mkStrip R 0 n).edge_length_at ((0 : ℝ) / 2) =
      (mkStrip R 0 n).edge_length_at (-((0 : ℝ) / 2))
    norm_num

/-- C8 witness at `R = 1`, `n = 2`. -/
theorem degenerate_width_zero_witness :
    2 ≤ 2 ∧
    (((mkStrip (1 : ℝ) 0 2).compute_surface_area).1 = 0 ∧
     (mkStrip (1 : ℝ) 0 2).edge_length_at ((mkStrip (1 : ℝ) 0 2).w / 2) =
       (mkStrip (1 : ℝ) 0 2).edge_length_at (-((mkStrip (1 : ℝ) 0 2).w / 2))) :=
  ⟨by norm_num, degenerate_width_zero 1 2 (by norm_num)⟩

/-- Two trapezoidal sums agree when the integrands agree on the sampled
indices. -/
theorem trapz_congr (f g : ℕ → ℝ) (dx : ℝ) (n : ℕ)
    (h : ∀ i, i < n → f i = g i) : trapz f dx n = trapz g dx n := by
  unfold trapz
  refine Finset.sum_congr rfl fun i hi => ?_
  rw [Finset.mem_range] at hi
  rw [h i (by omega), h (i + 1) (by omega)]

/-- A trapezoidal sum over a uniform grid is invariant under index
reversal. -/
theorem trapz_reflect (f : ℕ → ℝ) (dx : ℝ) (n : ℕ) :
    trapz (fun i => f (n - 1 - i)) dx n = trapz f dx n := by
  unfold trapz
  conv_rhs => rw [← Finset.sum_range_reflect]
  refine Finset.sum_congr rfl fun i hi => ?_
  rw [Finset.mem_range] at hi
  have e1 : n - 1 - (i + 1) = n - 1 - 1 - i := by omega
  have e2 : n - 1 - 1 - i + 1 = n - 1 - i := by omega
  show dx * ((f (n - 1 - i) + f (n - 1 - (i + 1))) / 2) =
    dx * ((f (n - 1 - 1 - i) + f (n - 1 - 1 - i + 1)) / 2)
  rw [e1, e2]
  ring

/-- Reversing the angular grid: `u[n-1-j] = 2π - u[j]` for `j ≤ n-1`. -/
theorem linspace_u_reflect (n : ℕ) (hn : 2 ≤ n) (j : ℕ) (hj : j ≤ n - 1) :
    linspace 0 (2 * Real.pi) n (n - 1 - j) = 2 * Real.pi - linspace 0 (2 * Real.pi) n j := by
  have h1 : (1 : ℕ) ≤ n := le_trans one_le_two hn
  have h2 : (2 : ℝ) ≤ (n : ℝ) := by exact_mod_cast hn
  have hne : (n : ℝ) - 1 ≠ 0 := by linarith
  have hcast : ((n - 1 - j : ℕ) : ℝ) = (n : ℝ) - 1 - (j : ℝ) := by
    rw [Nat.cast_sub hj, Nat.cast_sub h1, Nat.cast_one]
  unfold linspace
  rw [hcast]
  field_simp
  ring

/-- C10: for every handle with `n ≥ 2`, the two per-edge arc lengths computed
inside `compute_edge_length` are exactly equal as real numbers — the integrand
at `(-w/2, u)` equals the integrand at `(+w/2, 2π - u)`, and the trapezoidal
sum over the uniform grid on `[0, 2π]` is invariant under reversal — so the
returned total is exactly twice either single-edge length. -/
theorem edge_components_equal (R w : ℝ) (n : ℕ) (hn : 2 ≤ n) :
    (mkStrip R w n).edge_length_at (-(w / 2)) = (mkStrip R w n).edge_length_at (w / 2) ∧
    ((mkStrip R w n).compute_edge_length).1 = 2 * (mkStrip R w n).edge_length_at (w / 2) := by
  have key : (mkStrip R w n).edge_length_at (-(w / 2)) =
      (mkStrip R w n).edge_length_at (w / 2) := by
    rw [edge_length_at_eq, edge_length_at_eq]
    conv_rhs => rw [← trapz_reflect (fun j =>
      Real.sqrt ((R + w / 2 * Real.cos (linspace 0 (2 * Real.pi) n j / 2)) ^ 2 +
        (w / 2) ^ 2 / 4)) (2 * Real.pi / ((n : ℝ) - 1)) n]
    refine trapz_congr _ _ _ _ fun j hj => ?_
    have hj' : j ≤ n - 1 := by omega
    rw [linspace_u_reflect n hn j hj']
    have harg : (2 * Real.pi - linspace 0 (2 * Real.pi) n j) / 2 =
        Real.pi - linspace 0 (2 * Real.pi) n j / 2 := by ring
    rw [harg, Real.cos_pi_sub]
    congr 1
    ring
  refine ⟨key, ?_⟩
  have he : ((mkStrip R w n).compute_edge_length).1 =
      0 + (mkStrip R w n).edge_length_at (w / 2) +
      (mkStrip R w n).edge_length_at (-(w / 2)) := rfl
  rw [he, key]
  ring

/-- C10 witness at `R = 3`, `w = 1`, `n = 2`. -/
theorem edge_components_equal_witness :
    2 ≤ 2 ∧
    ((mkStrip (3 : ℝ) 1 2).edge_length_at (-(1 / 2)) =
       (mkStrip (3 : ℝ) 1 2).edge_length_at (1 / 2) ∧
     ((mkStrip (3 : ℝ) 1 2).compute_edge_length).1 =
       2 * (mkStrip (3 : ℝ) 1 2).edge_length_at (1 / 2)) :=
  ⟨by norm_num, edge_components_equal 3 1 2 (by norm_num)⟩

/-- Exact value of the surface-area estimate at `R = 3`, `w = 1`, `n = 2`. -/
theorem area_n2_val :
    ((mkStrip (3 : ℝ) 1 2).compute_surface_area).1 =
      Real.pi * (Real.sqrt (101 / 16) + Real.sqrt (197 / 16)) := by
  have u0 : linspace 0 (2 * Real.pi) 2 0 = 0 := by norm_num [linspace]
  have u1 : linspace 0 (2 * Real.pi) 2 1 = 2 * Real.pi := by norm_num [linspace]
  have v0 : linspace (-(1 / 2) : ℝ) (1 / 2) 2 0 = -(1 / 2) := by norm_num [linspace]
  have v1 : linspace (-(1 / 2) : ℝ) (1 / 2) 2 1 = 1 / 2 := by norm_num [linspace]
  have hc : Real.cos (2 * Real.pi / 2) = -1 := by
    rw [show 2 * Real.pi / 2 = Real.pi by ring, Real.cos_pi]
  rw [surface_area_eq]
  unfold trapz
  norm_num [Finset.sum_range_one, u0, u1, v0, v1, hc, Real.cos_zero]
  ring

/-- Exact value of the surface-area estimate at `R = 3`, `w = 1`, `n = 3`. -/
theorem area_n3_val :
    ((mkStrip (3 : ℝ) 1 3).compute_surface_area).1 =
      Real.pi * ((Real.sqrt (101 / 16) + Real.sqrt (197 / 16)) / 4 +
        Real.sqrt (145 / 16) / 2 + 3) := by
  have u0 : linspace 0 (2 * Real.pi) 3 0 = 0 := by norm_num [linspace]
  have u1 : linspace 0 (2 * Real.pi) 3 1 = Real.pi := by
    norm_num [linspace]
  have u2 : linspace 0 (2 * Real.pi) 3 2 = 2 * Real.pi := by
    norm_num [linspace]
  have v0 : linspace (-(1 / 2) : ℝ) (1 / 2) 3 0 = -(1 / 2) := by norm_num [linspace]
  have v1 : linspace (-(1 / 2) : ℝ) (1 / 2) 3 1 = 0 := by norm_num [linspace]
  have v2 : linspace (-(1 / 2) : ℝ) (1 / 2) 3 2 = 1 / 2 := by norm_num [linspace]
  have hc : Real.cos (2 * Real.pi / 2) = -1 := by
    rw [show 2 * Real.pi / 2 = Real.pi by ring, Real.cos_pi]
  have s9 : Real.sqrt 9 = 3 := by
    rw [show (9 : ℝ) = 3 ^ 2 by norm_num, Real.sqrt_sq (by norm_num : (0 : ℝ) ≤ 3)]
  rw [surface_area_eq]
  unfold trapz
  norm_num [Finset.sum_range_succ, Finset.sum_range_one, u0, u1, u2, v0, v1, v2,
    hc, Real.cos_zero, Real.cos_pi_div_two, s9]
  ring

/-- The exact n = 3 estimate is strictly below the exact n = 2 estimate
(rational bounds on the three square roots). -/
theorem area_vals_decrease :
    Real.pi * ((Real.sqrt (101 / 16) + Real.sqrt (197 / 16)) / 4 +
        Real.sqrt (145 / 16) / 2 + 3) <
      Real.pi * (Real.sqrt (101 / 16) + Real.sqrt (197 / 16)) := by
  have ha : (2.512 : ℝ) < Real.sqrt (101 / 16) := by
    rw [Real.lt_sqrt (by norm_num)]
    norm_num
  have hb : (3.5088 : ℝ) < Real.sqrt (197 / 16) := by
    rw [Real.lt_sqrt (by norm_num)]
    norm_num
  have hm : Real.sqrt (145 / 16) < 3.0105 := by
    rw [Real.sqrt_lt (by norm_num) (by norm_num)]
    norm_num
  have hpi := Real.pi_pos
  apply mul_lt_mul_of_pos_left _ hpi
  linarith

/-- C7 (counterexample): the claim says the area estimate is monotone
nondecreasing in `n`; at `R = 3`, `w = 1` the estimate at `n = 3` is strictly
below the estimate at `n = 2`. -/
theorem area_not_monotone :
    ¬ (((mkStrip (3 : ℝ) 1 2).compute_surface_area).1 ≤
        ((mkStrip (3 : ℝ) 1 3).compute_surface_area).1) := by
  rw [area_n2_val, area_n3_val]
  exact not_le.mpr area_vals_decrease

/-- C7 (amended): the surface-area estimate is not monotone in the
resolution: at `R = 3`, `w = 1` it strictly decreases from `n = 2` to
`n = 3`. -/
theorem area_estimate_decreases :
    ((mkStrip (3 : ℝ) 1 3).compute_surface_area).1 <
      ((mkStrip (3 : ℝ) 1 2).compute_surface_area).1 := by
  rw [area_n2_val, area_n3_val]
  exact area_vals_decrease
